import Mathlib

/-!
Verification of the SPSC queue repository (`spscq`).

The development shallowly embeds the two ring-buffer implementations of the
repository:

* `spscq` — the run-time-sized single-producer/single-consumer queue of
  `src/include/spscq.hpp` (fields `data_`, `size_`, `readIdx_`,
  `readIdxCached_`, `writeIdx_`, `writeIdxCached_`).  Slots are modelled as
  `Option α`: `none` is a slot holding no constructed element, `some v` a
  slot holding a live `T` with value `v`.  Machine indices (`size_t`) are
  modelled as `Nat`; the one place where `size_t` wrap-around matters
  (`size()`) takes the modulus `2 ^ 64` explicitly.
* `rbuffer` — the power-of-two masked iteration of `src/rbuffer.hpp`.

Executions are single-threaded: the atomic loads/stores of the source
collapse to plain reads/writes, while the cursor-cache logic (the stale
`readIdxCached_` / `writeIdxCached_` fields and their refresh-on-suspicion
paths) is kept exactly as in the source.
-/

/-- The modulus of `size_t` arithmetic (64-bit platform). -/
def USIZE : Nat := 2 ^ 64

/-- State of `spscq<T>` from `src/include/spscq.hpp`: allocated storage
`data_` (length `size_`), the two cursors and the two cursor caches.
A `none` entry of `data_` is an unconstructed slot. -/
structure spscq (α : Type) where
  size_ : Nat
  data_ : List (Option α)
  readIdx_ : Nat
  readIdxCached_ : Nat
  writeIdx_ : Nat
  writeIdxCached_ : Nat
deriving Repr, DecidableEq

/-- `spscq::increment`: advance an index with wrap-around at `size_`:
`nextIdx == size_ ? 0 : nextIdx`. -/
def spscq.increment {α : Type} (q : spscq α) (index : Nat) : Nat :=
  if index + 1 = q.size_ then 0 else index + 1

/-- `spscq::try_emplace` (single-threaded rendering).  Loads `writeIdx_`,
computes the incremented index, checks fullness against the cached read
index, refreshing the cache from `readIdx_` when the cached value signals
the queue might be full; on success placement-constructs the element in the
slot at `writeIdx_` and publishes the new write index. -/
def spscq.try_emplace {α : Type} (q : spscq α) (v : α) : Bool × spscq α :=
  let writeIdx := q.writeIdx_
  let nextWriteIdx := q.increment writeIdx
  if nextWriteIdx = q.readIdxCached_ then
    if nextWriteIdx = q.readIdx_ then
      (false, { q with readIdxCached_ := q.readIdx_ })
    else
      (true, { q with data_ := q.data_.set writeIdx (some v),
                      writeIdx_ := nextWriteIdx,
                      readIdxCached_ := q.readIdx_ })
  else
    (true, { q with data_ := q.data_.set writeIdx (some v),
                    writeIdx_ := nextWriteIdx })

/-- `spscq::try_push` forwards its value to `try_emplace`. -/
def spscq.try_push {α : Type} (q : spscq α) (v : α) : Bool × spscq α :=
  q.try_emplace v

/-- `spscq::try_emplace` with a fallible element constructor.  The argument
`ctor` models the evaluation of `T(args...)`: `some v` is a successful
construction producing `v`, `none` a constructor that throws.  The result
flag is `some b` for a normal return `b` and `none` for a propagated
exception.  The throw happens at the placement-`new`, i.e. after the
full-check (and its possible cache refresh) but before the write-cursor
store, exactly as in the source. -/
def spscq.try_emplaceF {α : Type} (q : spscq α) (ctor : Option α) :
    Option Bool × spscq α :=
  let writeIdx := q.writeIdx_
  let nextWriteIdx := q.increment writeIdx
  if nextWriteIdx = q.readIdxCached_ then
    if nextWriteIdx = q.readIdx_ then
      (some false, { q with readIdxCached_ := q.readIdx_ })
    else
      match ctor with
      | none => (none, { q with readIdxCached_ := q.readIdx_ })
      | some v =>
          (some true, { q with data_ := q.data_.set writeIdx (some v),
                               writeIdx_ := nextWriteIdx,
                               readIdxCached_ := q.readIdx_ })
  else
    match ctor with
    | none => (none, q)
    | some v =>
        (some true, { q with data_ := q.data_.set writeIdx (some v),
                             writeIdx_ := nextWriteIdx })

/-- `spscq::try_pop` (single-threaded rendering).  `value` is the caller's
out-parameter.  Emptiness is checked against the cached write index with a
refresh from `writeIdx_` when the cache signals the queue might be empty;
on success the element is moved out of the slot, the slot destroyed
(`none`) and the new read index published.  A move out of an unconstructed
slot (impossible in a reachable state) leaves the out-parameter as is. -/
def spscq.try_pop {α : Type} (q : spscq α) (value : α) : Bool × α × spscq α :=
  let readIdx := q.readIdx_
  if readIdx = q.writeIdxCached_ then
    if readIdx = q.writeIdx_ then
      (false, value, { q with writeIdxCached_ := q.writeIdx_ })
    else
      (true, (q.data_.getD readIdx none).getD value,
        { q with data_ := q.data_.set readIdx none,
                 readIdx_ := q.increment readIdx,
                 writeIdxCached_ := q.writeIdx_ })
  else
    (true, (q.data_.getD readIdx none).getD value,
      { q with data_ := q.data_.set readIdx none,
               readIdx_ := q.increment readIdx })

/-- `spscq::size`: `writeIdx - readIdx + (writeIdx < readIdx ? size_ : 0)`
in `size_t` arithmetic, i.e. modulo `2 ^ 64` with wrapping subtraction. -/
def spscq.qsize {α : Type} (q : spscq α) : Nat :=
  ((q.writeIdx_ + (USIZE - q.readIdx_)) % USIZE +
    (if q.writeIdx_ < q.readIdx_ then q.size_ else 0)) % USIZE

/-- `spscq::empty`: `readIdx_ == writeIdx_` from fresh loads. -/
def spscq.emptyq {α : Type} (q : spscq α) : Bool :=
  q.readIdx_ = q.writeIdx_

/-- The state of a freshly constructed `spscq(size)`: `size` uninitialized
slots, all four indices zero-initialized. -/
def freshQ (α : Type) (size : Nat) : spscq α :=
  { size_ := size, data_ := List.replicate size none,
    readIdx_ := 0, readIdxCached_ := 0, writeIdx_ := 0, writeIdxCached_ := 0 }

/-- The constructor `spscq::spscq(size, alloc)`: throws
`std::invalid_argument` when `size == 0` (modelled as `none`), otherwise
allocates `size` slots without constructing any element and zero-initializes
the cursors (allocation assumed to succeed). -/
def mkSpscq (α : Type) (size : Nat) : Option (spscq α) :=
  if size = 0 then none else some (freshQ α size)

/-- A producer/consumer operation driven against the queue. -/
inductive Op (α : Type) where
  | push : α → Op α
  | pop : Op α
deriving Repr, DecidableEq

/-- Observables of a single-threaded run: per-operation success flags, the
values delivered by successful `try_pop` calls in order, the values accepted
by successful `try_emplace` calls in order, and the final state. -/
structure RunOut (α : Type) where
  trace : List Bool
  popped : List α
  pushedOK : List α
  final : spscq α

/-- Run a list of operations against a queue, single-threaded.  Each `pop`
supplies a fresh out-variable holding `d`. -/
def runq {α : Type} (d : α) : spscq α → List (Op α) → RunOut α
  | q, [] => ⟨[], [], [], q⟩
  | q, Op.push v :: ops =>
      let r := q.try_emplace v
      let o := runq d r.2 ops
      ⟨r.1 :: o.trace, o.popped,
        if r.1 then v :: o.pushedOK else o.pushedOK, o.final⟩
  | q, Op.pop :: ops =>
      let r := q.try_pop d
      let o := runq d r.2.2 ops
      ⟨r.1 :: o.trace, if r.1 then r.2.1 :: o.popped else o.popped,
        o.pushedOK, o.final⟩

/-- Index arithmetic helper: for in-range summands, `(a + b) % N` either
stays below `N` or wraps exactly once. -/
theorem addIdx_mod {N a b : Nat} (ha : a < N) (hb : b ≤ N) :
    (a + b) % N = if a + b < N then a + b else a + b - N := by
  split_ifs with h
  · exact Nat.mod_eq_of_lt h
  · rw [Nat.mod_eq_sub_mod (Nat.le_of_not_lt h)]
    exact Nat.mod_eq_of_lt (by omega)

/-- Reachable-state invariant of `spscq`, relating a state `q` to the list
`xs` of live element values in FIFO order (oldest first).  It records the
cursor bounds, the occupied-region equation `writeIdx ≡ readIdx + |xs|`
(mod `size_`), validity of the two cursor caches (the occupancy computed
from the producer's cached read index over-approximates the true occupancy,
the one computed from the consumer's cached write index under-approximates
it) and the contents of the occupied slots. -/
@[reducible] def QInv {α : Type} (q : spscq α) (xs : List α) : Prop :=
  1 ≤ q.size_ ∧
  q.data_.length = q.size_ ∧
  q.readIdx_ < q.size_ ∧
  q.writeIdx_ < q.size_ ∧
  q.readIdxCached_ < q.size_ ∧
  q.writeIdxCached_ < q.size_ ∧
  xs.length < q.size_ ∧
  (q.readIdx_ + xs.length = q.writeIdx_ ∨
    q.readIdx_ + xs.length = q.writeIdx_ + q.size_) ∧
  (∃ lc, lc < q.size_ ∧ xs.length ≤ lc ∧
    (q.readIdxCached_ + lc = q.writeIdx_ ∨
      q.readIdxCached_ + lc = q.writeIdx_ + q.size_)) ∧
  (∃ lw, lw < q.size_ ∧ lw ≤ xs.length ∧
    (q.readIdx_ + lw = q.writeIdxCached_ ∨
      q.readIdx_ + lw = q.writeIdxCached_ + q.size_)) ∧
  (∀ j, j < xs.length →
    q.data_.get? ((q.readIdx_ + j) % q.size_) = some (xs.get? j))

/-- A freshly constructed queue satisfies the invariant with no live
elements. -/
theorem QInv_fresh {α : Type} {N : Nat} (hN : 1 ≤ N) :
    QInv (freshQ α N) [] := by
  refine ⟨hN, List.length_replicate _ _, hN, hN, hN, hN, hN, Or.inl rfl,
    ⟨0, hN, Nat.le_refl 0, Or.inl rfl⟩, ⟨0, hN, Nat.le_refl 0, Or.inl rfl⟩,
    fun j hj => absurd hj (by simp)⟩

/-- `increment` viewed as linear arithmetic facts. -/
theorem increment_cases {α : Type} (q : spscq α) (i : Nat) :
    (q.increment i = 0 ∧ i + 1 = q.size_) ∨
    (q.increment i = i + 1 ∧ i + 1 ≠ q.size_) := by
  unfold spscq.increment
  split_ifs with hh
  · exact Or.inl ⟨rfl, hh⟩
  · exact Or.inr ⟨rfl, hh⟩

/-- Shape of a successful `try_emplace`: whenever the incremented write
index differs from the true read index, the element is stored and the write
cursor advances; the read-index cache is refreshed exactly when the first
full-check fired. -/
theorem try_emplace_eq_true {α : Type} (q : spscq α) (v : α)
    (hne : q.increment q.writeIdx_ ≠ q.readIdx_) :
    q.try_emplace v = (true,
      { q with data_ := q.data_.set q.writeIdx_ (some v),
               writeIdx_ := q.increment q.writeIdx_,
               readIdxCached_ :=
                 if q.increment q.writeIdx_ = q.readIdxCached_
                 then q.readIdx_ else q.readIdxCached_ }) := by
  unfold spscq.try_emplace
  by_cases h1 : q.increment q.writeIdx_ = q.readIdxCached_
  · rw [if_pos h1, if_neg hne, if_pos h1]
  · rw [if_neg h1, if_neg h1]

/-- Shape of a failing `try_emplace`: both full-checks fire, the cache is
refreshed and nothing else changes. -/
theorem try_emplace_eq_false {α : Type} (q : spscq α) (v : α)
    (hc : q.increment q.writeIdx_ = q.readIdxCached_)
    (hfull : q.increment q.writeIdx_ = q.readIdx_) :
    q.try_emplace v = (false, { q with readIdxCached_ := q.readIdx_ }) := by
  unfold spscq.try_emplace
  rw [if_pos hc, if_pos hfull]

/-- Shape of a successful `try_pop`: whenever the cursors differ, the slot
at the read index is moved out and destroyed and the read cursor advances;
the write-index cache is refreshed exactly when the first empty-check
fired. -/
theorem try_pop_eq_true {α : Type} (q : spscq α) (d : α)
    (hne : q.readIdx_ ≠ q.writeIdx_) :
    q.try_pop d = (true, (q.data_.getD q.readIdx_ none).getD d,
      { q with data_ := q.data_.set q.readIdx_ none,
               readIdx_ := q.increment q.readIdx_,
               writeIdxCached_ :=
                 if q.readIdx_ = q.writeIdxCached_
                 then q.writeIdx_ else q.writeIdxCached_ }) := by
  unfold spscq.try_pop
  by_cases h1 : q.readIdx_ = q.writeIdxCached_
  · rw [if_pos h1, if_neg hne, if_pos h1]
  · rw [if_neg h1, if_neg h1]

/-- Shape of a failing `try_pop`: both empty-checks fire, the cache is
refreshed, the out-parameter and everything else are untouched. -/
theorem try_pop_eq_false {α : Type} (q : spscq α) (d : α)
    (hc : q.readIdx_ = q.writeIdxCached_)
    (hempty : q.readIdx_ = q.writeIdx_) :
    q.try_pop d = (false, d, { q with writeIdxCached_ := q.writeIdx_ }) := by
  unfold spscq.try_pop
  rw [if_pos hc, if_pos hempty]

/-- Introduction form of `QInv` on an explicit state, stated over plain
variables so arithmetic goals stay readable. -/
theorem QInv_mk {α : Type} {N : Nat} {dat : List (Option α)} {r rc w wc : Nat}
    {xs : List α}
    (h1 : 1 ≤ N) (h2 : dat.length = N) (h3 : r < N) (h4 : w < N)
    (h5 : rc < N) (h6 : wc < N) (h7 : xs.length < N)
    (h8 : r + xs.length = w ∨ r + xs.length = w + N)
    (h9 : ∃ lc, lc < N ∧ xs.length ≤ lc ∧ (rc + lc = w ∨ rc + lc = w + N))
    (h10 : ∃ lw, lw < N ∧ lw ≤ xs.length ∧ (r + lw = wc ∨ r + lw = wc + N))
    (h11 : ∀ j, j < xs.length → dat.get? ((r + j) % N) = some (xs.get? j)) :
    QInv ⟨N, dat, r, rc, w, wc⟩ xs :=
  ⟨h1, h2, h3, h4, h5, h6, h7, h8, h9, h10, h11⟩

/-- A non-full reachable queue accepts `try_emplace`: the call returns
`true` and the new state is reachable with `v` appended to the live
contents. -/
theorem try_emplace_succ {α : Type} {q : spscq α} {xs : List α}
    (h : QInv q xs) (v : α) (hroom : xs.length + 2 ≤ q.size_) :
    (q.try_emplace v).1 = true ∧ QInv (q.try_emplace v).2 (xs ++ [v]) := by
  obtain ⟨hN, hdlen, hr, hw, hrc, hwc, hxs, hwr,
    ⟨lc, hlc1, hlc2, hlc3⟩, ⟨lw, hlw1, hlw2, hlw3⟩, hslots⟩ := h
  have hinc := increment_cases q q.writeIdx_
  have hne : q.increment q.writeIdx_ ≠ q.readIdx_ := by omega
  rw [try_emplace_eq_true q v hne]
  refine ⟨rfl, QInv_mk hN (by simpa using hdlen) hr (by omega)
    (by split_ifs <;> omega) hwc
    (by simp only [List.length_append, List.length_singleton]; omega)
    (by simp only [List.length_append, List.length_singleton]; omega)
    ?_ ?_ ?_⟩
  · simp only [List.length_append, List.length_singleton]
    split_ifs with hcc
    · exact ⟨xs.length + 1, by omega, by omega, by omega⟩
    · exact ⟨lc + 1, by omega, by omega, by omega⟩
  · exact ⟨lw, hlw1,
      by simp only [List.length_append, List.length_singleton]; omega, hlw3⟩
  · intro j hj
    rw [List.length_append, List.length_singleton] at hj
    rcases Nat.lt_or_ge j xs.length with hjlt | hjge
    · have hne2 : (q.readIdx_ + j) % q.size_ ≠ q.writeIdx_ := by
        rw [addIdx_mod hr (by omega)]
        split_ifs <;> omega
      rw [List.get?_set_ne _ _ (Ne.symm hne2), List.get?_append hjlt]
      exact hslots j hjlt
    · have hj' : j = xs.length := by omega
      subst hj'
      have hidx : (q.readIdx_ + xs.length) % q.size_ = q.writeIdx_ := by
        rw [addIdx_mod hr (by omega)]
        split_ifs <;> omega
      rw [hidx, List.get?_set_eq_of_lt _ (by omega), List.get?_concat_length]

/-- A full reachable queue rejects `try_emplace`: the call returns `false`,
refreshes only the read-index cache and leaves the contents unchanged. -/
theorem try_emplace_fail {α : Type} {q : spscq α} {xs : List α}
    (h : QInv q xs) (v : α) (hfull : q.size_ < xs.length + 2) :
    q.try_emplace v = (false, { q with readIdxCached_ := q.readIdx_ }) ∧
    QInv { q with readIdxCached_ := q.readIdx_ } xs := by
  obtain ⟨hN, hdlen, hr, hw, hrc, hwc, hxs, hwr,
    ⟨lc, hlc1, hlc2, hlc3⟩, ⟨lw, hlw1, hlw2, hlw3⟩, hslots⟩ := h
  have hinc := increment_cases q q.writeIdx_
  have hc : q.increment q.writeIdx_ = q.readIdxCached_ := by omega
  have hfe : q.increment q.writeIdx_ = q.readIdx_ := by omega
  exact ⟨try_emplace_eq_false q v hc hfe,
    QInv_mk hN hdlen hr hw hr hwc hxs hwr
      ⟨xs.length, hxs, Nat.le_refl _, hwr⟩
      ⟨lw, hlw1, hlw2, hlw3⟩ hslots⟩

/-- A nonempty reachable queue serves `try_pop`: the call returns `true`,
delivers the oldest element into the out-parameter, destroys its slot and
leaves a reachable state holding the remaining elements. -/
theorem try_pop_succ {α : Type} {q : spscq α} {x : α} {rest : List α}
    (h : QInv q (x :: rest)) (d : α) :
    (q.try_pop d).1 = true ∧ (q.try_pop d).2.1 = x ∧
    QInv (q.try_pop d).2.2 rest := by
  obtain ⟨hN, hdlen, hr, hw, hrc, hwc, hxs, hwr,
    ⟨lc, hlc1, hlc2, hlc3⟩, ⟨lw, hlw1, hlw2, hlw3⟩, hslots⟩ := h
  simp only [List.length_cons] at hxs hwr hlc2 hlw2
  have hincR := increment_cases q q.readIdx_
  have hne : q.readIdx_ ≠ q.writeIdx_ := by omega
  have hval : (q.data_.getD q.readIdx_ none).getD d = x := by
    have h0 := hslots 0 (by simp)
    rw [Nat.add_zero, Nat.mod_eq_of_lt hr] at h0
    rw [List.getD_eq_get?, h0]
    rfl
  rw [try_pop_eq_true q d hne]
  refine ⟨rfl, hval, QInv_mk hN (by simpa using hdlen) (by omega) hw hrc
    (by split_ifs <;> omega) (by omega) (by omega)
    ⟨lc, hlc1, by omega, hlc3⟩ ?_ ?_⟩
  · split_ifs with hcc
    · exact ⟨rest.length, by omega, Nat.le_refl _, by omega⟩
    · exact ⟨lw - 1, by omega, by omega, by omega⟩
  · intro j hj
    have hidx : (q.increment q.readIdx_ + j) % q.size_ =
        (q.readIdx_ + (j + 1)) % q.size_ := by
      rw [addIdx_mod (by omega) (by omega), addIdx_mod hr (by omega)]
      split_ifs <;> omega
    have hne2 : (q.readIdx_ + (j + 1)) % q.size_ ≠ q.readIdx_ := by
      rw [addIdx_mod hr (by omega)]
      split_ifs <;> omega
    rw [hidx, List.get?_set_ne _ _ (Ne.symm hne2)]
    have hj1 := hslots (j + 1) (by simp only [List.length_cons]; omega)
    rw [hj1]
    rfl

/-- An empty reachable queue rejects `try_pop`: the call returns `false`,
leaves the out-parameter untouched, refreshes only the write-index cache
and destroys no slot. -/
theorem try_pop_fail {α : Type} {q : spscq α} (h : QInv q []) (d : α) :
    q.try_pop d = (false, d, { q with writeIdxCached_ := q.writeIdx_ }) ∧
    QInv { q with writeIdxCached_ := q.writeIdx_ } [] := by
  obtain ⟨hN, hdlen, hr, hw, hrc, hwc, hxs, hwr,
    ⟨lc, hlc1, hlc2, hlc3⟩, ⟨lw, hlw1, hlw2, hlw3⟩, hslots⟩ := h
  simp only [List.length_nil] at hwr hlw2
  have hc : q.readIdx_ = q.writeIdxCached_ := by omega
  have hempty : q.readIdx_ = q.writeIdx_ := by omega
  exact ⟨try_pop_eq_false q d hc hempty,
    QInv_mk hN hdlen hr hw hrc hw hxs hwr ⟨lc, hlc1, hlc2, hlc3⟩
      ⟨0, by omega, Nat.le_refl _, by omega⟩ hslots⟩

/-- Observables of a run of the abstract queue machine, whose state is just
the list of live values. -/
structure ARunOut (α : Type) where
  trace : List Bool
  popped : List α
  pushedOK : List α
  final : List α

/-- Abstract queue machine: a push on a queue of storage size `N` succeeds
exactly when fewer than `N - 1` elements are live, a pop exactly when some
element is live. -/
def arun (N : Nat) : List α → List (Op α) → ARunOut α
  | xs, [] => ⟨[], [], [], xs⟩
  | xs, Op.push v :: ops =>
      if xs.length + 2 ≤ N then
        let o := arun N (xs ++ [v]) ops
        ⟨true :: o.trace, o.popped, v :: o.pushedOK, o.final⟩
      else
        let o := arun N xs ops
        ⟨false :: o.trace, o.popped, o.pushedOK, o.final⟩
  | [], Op.pop :: ops =>
      let o := arun N ([] : List α) ops
      ⟨false :: o.trace, o.popped, o.pushedOK, o.final⟩
  | x :: rest, Op.pop :: ops =>
      let o := arun N rest ops
      ⟨true :: o.trace, x :: o.popped, o.pushedOK, o.final⟩

/-- Simulation: a run of the concrete queue from any reachable state is
observably identical to the run of the abstract machine from the
corresponding live contents, and ends in a reachable state. -/
theorem runq_sim {α : Type} (d : α) (ops : List (Op α)) :
    ∀ (q : spscq α) (xs : List α), QInv q xs →
      (runq d q ops).trace = (arun q.size_ xs ops).trace ∧
      (runq d q ops).popped = (arun q.size_ xs ops).popped ∧
      (runq d q ops).pushedOK = (arun q.size_ xs ops).pushedOK ∧
      QInv (runq d q ops).final (arun q.size_ xs ops).final := by
  induction ops with
  | nil =>
    intro q xs h
    simp only [runq, arun]
    exact ⟨trivial, trivial, trivial, h⟩
  | cons op ops ih =>
    intro q xs h
    have hN := h.1
    cases op with
    | push v =>
      by_cases hroom : xs.length + 2 ≤ q.size_
      · obtain ⟨hb, hq⟩ := try_emplace_succ h v hroom
        have hsz : (q.try_emplace v).2.size_ = q.size_ := by
          rw [try_emplace_eq_true q v (by
            have := increment_cases q q.writeIdx_
            obtain ⟨_, _, _, _, _, _, _, hwr, ⟨lc, hlc⟩, _, _⟩ := h
            omega)]
        obtain ⟨h1, h2, h3, h4⟩ := ih (q.try_emplace v).2 (xs ++ [v]) hq
        rw [hsz] at h1 h2 h3 h4
        simp only [runq, arun, if_pos hroom, hb, h1, h2, h3, if_true]
        exact ⟨trivial, trivial, trivial, h4⟩
      · obtain ⟨he, hq⟩ := try_emplace_fail h v (by omega)
        have hb : (q.try_emplace v).1 = false := by rw [he]
        obtain ⟨h1, h2, h3, h4⟩ := ih (q.try_emplace v).2 xs (by rw [he]; exact hq)
        have hsz : (q.try_emplace v).2.size_ = q.size_ := by rw [he]
        rw [hsz] at h1 h2 h3 h4
        simp only [runq, arun, if_neg hroom, hb, h1, h2, h3, if_false,
          Bool.false_eq_true]
        exact ⟨trivial, trivial, trivial, h4⟩
    | pop =>
      cases xs with
      | nil =>
        obtain ⟨he, hq⟩ := try_pop_fail h d
        have hb : (q.try_pop d).1 = false := by rw [he]
        obtain ⟨h1, h2, h3, h4⟩ := ih (q.try_pop d).2.2 [] (by rw [he]; exact hq)
        have hsz : (q.try_pop d).2.2.size_ = q.size_ := by rw [he]
        rw [hsz] at h1 h2 h3 h4
        simp only [runq, arun, hb, h1, h2, h3, if_false, Bool.false_eq_true]
        exact ⟨trivial, trivial, trivial, h4⟩
      | cons x rest =>
        obtain ⟨hb, hx, hq⟩ := try_pop_succ h d
        obtain ⟨h1, h2, h3, h4⟩ := ih (q.try_pop d).2.2 rest hq
        have hsz : (q.try_pop d).2.2.size_ = q.size_ := by
          rw [try_pop_eq_true q d (by
            obtain ⟨_, _, _, _, _, _, hxs, hwr, _, _, _⟩ := h
            simp only [List.length_cons] at hxs hwr
            omega)]
        rw [hsz] at h1 h2 h3 h4
        simp only [runq, arun, hb, hx, h1, h2, h3, if_true]
        exact ⟨trivial, trivial, trivial, h4⟩

/-- Abstract FIFO: over any run, the initial contents followed by the
accepted pushes equal the delivered pops followed by the final contents. -/
theorem arun_fifo {α : Type} (N : Nat) (ops : List (Op α)) :
    ∀ xs : List α,
      xs ++ (arun N xs ops).pushedOK =
        (arun N xs ops).popped ++ (arun N xs ops).final := by
  induction ops with
  | nil => intro xs; simp [arun]
  | cons op ops ih =>
    intro xs
    cases op with
    | push v =>
      by_cases hroom : xs.length + 2 ≤ N
      · simp only [arun, if_pos hroom]
        rw [List.append_cons xs v]
        exact ih (xs ++ [v])
      · simp only [arun, if_neg hroom]
        exact ih xs
    | pop =>
      cases xs with
      | nil =>
        simp only [arun]
        exact ih []
      | cons x rest =>
        simp only [arun, List.cons_append]
        rw [ih rest]

/-- The boolean push-success pattern from an initially almost-full margin:
`replicate` of successes followed by one failure. -/
theorem range_map_decide (N : Nat) (hN : 1 ≤ N) :
    ((List.range N).map fun i => decide (i + 2 ≤ N)) =
      List.replicate (N - 1) true ++ [false] := by
  obtain ⟨M, rfl⟩ : ∃ M, N = M + 1 := ⟨N - 1, by omega⟩
  rw [List.range_succ, List.map_append, List.map_cons, List.map_nil]
  congr 1
  · refine List.eq_replicate_iff.mpr ⟨by simp, ?_⟩
    intro b hb
    obtain ⟨i, hi, rfl⟩ := List.mem_map.1 hb
    have := List.mem_range.1 hi
    exact decide_eq_true (by omega)
  · have h2 : ¬ (M + 2 ≤ M + 1) := by omega
    simp [h2]

/-- Trace of a block of consecutive pushes on the abstract machine: the
`i`-th push succeeds exactly while the queue is not yet full. -/
theorem arun_pushes_trace {α : Type} (N : Nat) :
    ∀ (vs xs : List α),
      (arun N xs (vs.map Op.push)).trace =
        (List.range vs.length).map fun i => decide (xs.length + i + 2 ≤ N) := by
  intro vs
  induction vs with
  | nil => intro xs; simp [arun]
  | cons v vs ih =>
    intro xs
    simp only [List.map_cons, List.length_cons]
    by_cases hroom : xs.length + 2 ≤ N
    · simp only [arun, if_pos hroom]
      rw [ih (xs ++ [v]), List.range_succ_eq_map, List.map_cons, List.map_map]
      congr 1
      · exact (decide_eq_true (by omega)).symm
      · refine List.map_congr_left ?_
        intro i hi
        simp only [Function.comp_apply, List.length_append,
          List.length_singleton]
        exact decide_eq_decide.mpr (by omega)
    · simp only [arun, if_neg hroom]
      rw [ih xs, List.range_succ_eq_map, List.map_cons, List.map_map]
      congr 1
      · exact (decide_eq_false (by omega)).symm
      · refine List.map_congr_left ?_
        intro i hi
        simp only [Function.comp_apply]
        exact decide_eq_decide.mpr (by omega)

/-- On the abstract machine with storage size 1 every operation fails and
nothing is ever delivered or accepted. -/
theorem arun_one {α : Type} (ops : List (Op α)) :
    arun 1 ([] : List α) ops = ⟨ops.map fun _ => false, [], [], []⟩ := by
  induction ops with
  | nil => simp [arun]
  | cons op ops ih =>
    cases op with
    | push v =>
      have h : ¬ (([] : List α).length + 2 ≤ 1) := by simp
      simp [arun, h, ih]
    | pop => simp [arun, ih]

/-- C1 — FIFO order (sequential): over any single-threaded run on a fresh
`spscq` of size `N ≥ 1`, the values accepted by successful
`try_emplace`/`try_push` calls equal the values delivered by successful
`try_pop` calls followed by the elements still live in the final state (so
the popped sequence is a prefix of the pushed sequence: same order, no
duplication, no loss), and when the run ends with the queue drained the two
sequences are equal. -/
theorem spscq_fifo {α : Type} (N : Nat) (hN : 1 ≤ N) (d : α)
    (ops : List (Op α)) :
    ∃ rest : List α,
      (runq d (freshQ α N) ops).pushedOK =
        (runq d (freshQ α N) ops).popped ++ rest ∧
      QInv (runq d (freshQ α N) ops).final rest ∧
      ((runq d (freshQ α N) ops).final.readIdx_ =
          (runq d (freshQ α N) ops).final.writeIdx_ →
        (runq d (freshQ α N) ops).pushedOK =
          (runq d (freshQ α N) ops).popped) := by
  obtain ⟨htr, hpo, hpu, hfin⟩ :=
    runq_sim d ops (freshQ α N) [] (QInv_fresh hN)
  refine ⟨(arun (freshQ α N).size_ ([] : List α) ops).final, ?_, hfin, ?_⟩
  · rw [hpu, hpo]
    have hf := arun_fifo (α := α) (freshQ α N).size_ ops []
    simpa using hf
  · intro hrw
    obtain ⟨hN', _, _, _, _, _, hxs, hwr, _, _, _⟩ := hfin
    have hz :
        (arun (freshQ α N).size_ ([] : List α) ops).final.length = 0 := by
      omega
    have hnil := List.eq_nil_of_length_eq_zero hz
    rw [hpu, hpo]
    have hf := arun_fifo (α := α) (freshQ α N).size_ ops []
    rw [hnil, List.append_nil] at hf
    simpa using hf

/-- Witness for C1 at a concrete run. -/
theorem spscq_fifo_witness :
    1 ≤ 4 ∧
    ∃ rest : List Nat,
      (runq 0 (freshQ Nat 4) [Op.push 1, Op.push 2, Op.pop]).pushedOK =
        (runq 0 (freshQ Nat 4) [Op.push 1, Op.push 2, Op.pop]).popped ++
          rest ∧
      QInv (runq 0 (freshQ Nat 4) [Op.push 1, Op.push 2, Op.pop]).final
        rest ∧
      ((runq 0 (freshQ Nat 4) [Op.push 1, Op.push 2, Op.pop]).final.readIdx_ =
          (runq 0 (freshQ Nat 4)
            [Op.push 1, Op.push 2, Op.pop]).final.writeIdx_ →
        (runq 0 (freshQ Nat 4) [Op.push 1, Op.push 2, Op.pop]).pushedOK =
          (runq 0 (freshQ Nat 4) [Op.push 1, Op.push 2, Op.pop]).popped) :=
  ⟨by decide, spscq_fifo 4 (by decide) 0 [Op.push 1, Op.push 2, Op.pop]⟩

/-- C2 — capacity bound: on a fresh `spscq` of size `N ≥ 1` (usable
capacity `N - 1`), a block of `N` consecutive `try_emplace` calls with no
intervening pops succeeds exactly `N - 1` times and the `N`-th call
fails. -/
theorem spscq_capacity_bound {α : Type} (N : Nat) (hN : 1 ≤ N) (d : α)
    (vs : List α) (hvs : vs.length = N) :
    (runq d (freshQ α N) (vs.map Op.push)).trace =
      List.replicate (N - 1) true ++ [false] := by
  obtain ⟨htr, _, _, _⟩ :=
    runq_sim d (vs.map Op.push) (freshQ α N) [] (QInv_fresh hN)
  rw [htr, arun_pushes_trace]
  simp only [List.length_nil, Nat.zero_add]
  rw [hvs]
  exact range_map_decide N hN

/-- Witness for C2 at `N = 4`. -/
theorem spscq_capacity_bound_witness :
    1 ≤ 4 ∧ ([1, 2, 3, 4] : List Nat).length = 4 ∧
    (runq 0 (freshQ Nat 4) ([1, 2, 3, 4].map Op.push)).trace =
      List.replicate 3 true ++ [false] :=
  ⟨by decide, by decide,
    spscq_capacity_bound 4 (by decide) 0 [1, 2, 3, 4] (by decide)⟩

/-- C4 — wraparound worked example: on a fresh `spscq` of size 4 (usable
capacity 3), pushing 1, 2, 3 succeeds, a fourth push of 4 fails, one pop
yields 1, pushing 4 then succeeds, pushing 5 fails, the subsequent pops
yield 2, 3, 4 in order, and the next pop fails. -/
theorem spscq_wraparound_example :
    (runq 0 (freshQ Nat 4)
        [Op.push 1, Op.push 2, Op.push 3, Op.push 4, Op.pop, Op.push 4,
          Op.push 5, Op.pop, Op.pop, Op.pop, Op.pop]).trace =
      [true, true, true, false, true, true, false, true, true, true,
        false] ∧
    (runq 0 (freshQ Nat 4)
        [Op.push 1, Op.push 2, Op.push 3, Op.push 4, Op.pop, Op.push 4,
          Op.push 5, Op.pop, Op.pop, Op.pop, Op.pop]).popped =
      [1, 2, 3, 4] := by
  decide

/-- C5 — `try_pop` failure frame: on any reachable empty queue state,
`try_pop` returns `false`, leaves the out-parameter untouched, leaves the
read cursor, the write cursor and every slot unchanged (only the consumer's
write-index cache is refreshed). -/
theorem spscq_pop_empty_frame {α : Type} (q : spscq α) (out : α)
    (h : QInv q []) :
    q.try_pop out =
      (false, out, { q with writeIdxCached_ := q.writeIdx_ }) :=
  (try_pop_fail h out).1

/-- Witness for C5 on a fresh queue of size 4. -/
theorem spscq_pop_empty_frame_witness :
    (freshQ Nat 4).try_pop 7 =
      (false, 7,
        { freshQ Nat 4 with writeIdxCached_ := (freshQ Nat 4).writeIdx_ }) :=
  spscq_pop_empty_frame (freshQ Nat 4) 7 (QInv_fresh (by decide))

/-- On a successful construction, the fallible variant agrees with
`try_emplace`. -/
theorem try_emplaceF_some {α : Type} (q : spscq α) (v : α) :
    q.try_emplaceF (some v) =
      (some (q.try_emplace v).1, (q.try_emplace v).2) := by
  unfold spscq.try_emplaceF spscq.try_emplace
  by_cases h1 : q.increment q.writeIdx_ = q.readIdxCached_
  · by_cases h2 : q.increment q.writeIdx_ = q.readIdx_
    · rw [if_pos h1, if_pos h2, if_pos h1, if_pos h2]
    · rw [if_pos h1, if_neg h2, if_pos h1, if_neg h2]
  · rw [if_neg h1, if_neg h1]

/-- Shape of `try_emplaceF` when the element constructor throws and the
queue is not full: the exception propagates (`none`), the storage and both
cursors are untouched, and only the producer's read-index cache may have
been refreshed. -/
theorem try_emplaceF_none_eq {α : Type} (q : spscq α)
    (hne : q.increment q.writeIdx_ ≠ q.readIdx_) :
    q.try_emplaceF none = (none,
      { q with readIdxCached_ :=
          if q.increment q.writeIdx_ = q.readIdxCached_
          then q.readIdx_ else q.readIdxCached_ }) := by
  unfold spscq.try_emplaceF
  by_cases h1 : q.increment q.writeIdx_ = q.readIdxCached_
  · rw [if_pos h1, if_neg hne, if_pos h1]
  · rw [if_neg h1, if_neg h1]

/-- C3 — strong guarantee under element-constructor failure: on any
reachable non-full queue state, a `try_emplace` whose element construction
throws propagates the failure, leaves the write cursor, the read cursor and
every slot exactly as before the call, leaves the queue in a reachable
state with the same live contents, and every subsequent run of operations
is observably identical to one in which the failed attempt never
happened. -/
theorem spscq_emplace_ctor_failure {α : Type} (q : spscq α) (xs : List α)
    (h : QInv q xs) (hroom : xs.length + 2 ≤ q.size_) :
    (q.try_emplaceF none).1 = none ∧
    (q.try_emplaceF none).2.writeIdx_ = q.writeIdx_ ∧
    (q.try_emplaceF none).2.readIdx_ = q.readIdx_ ∧
    (q.try_emplaceF none).2.data_ = q.data_ ∧
    QInv (q.try_emplaceF none).2 xs ∧
    ∀ (d : α) (ops : List (Op α)),
      (runq d (q.try_emplaceF none).2 ops).trace =
        (runq d q ops).trace ∧
      (runq d (q.try_emplaceF none).2 ops).popped =
        (runq d q ops).popped ∧
      (runq d (q.try_emplaceF none).2 ops).pushedOK =
        (runq d q ops).pushedOK := by
  obtain ⟨hN, hdlen, hr, hw, hrc, hwc, hxs, hwr,
    ⟨lc, hlc1, hlc2, hlc3⟩, ⟨lw, hlw1, hlw2, hlw3⟩, hslots⟩ := h
  have hinc := increment_cases q q.writeIdx_
  have hne : q.increment q.writeIdx_ ≠ q.readIdx_ := by omega
  have hq' : QInv (q.try_emplaceF none).2 xs := by
    rw [try_emplaceF_none_eq q hne]
    refine QInv_mk hN hdlen hr hw (by split_ifs <;> omega) hwc hxs hwr
      ?_ ⟨lw, hlw1, hlw2, hlw3⟩ hslots
    split_ifs with hcc
    · exact ⟨xs.length, hxs, Nat.le_refl _, hwr⟩
    · exact ⟨lc, hlc1, hlc2, hlc3⟩
  have hqold : QInv q xs :=
    ⟨hN, hdlen, hr, hw, hrc, hwc, hxs, hwr, ⟨lc, hlc1, hlc2, hlc3⟩,
      ⟨lw, hlw1, hlw2, hlw3⟩, hslots⟩
  have hsz : (q.try_emplaceF none).2.size_ = q.size_ := by
    rw [try_emplaceF_none_eq q hne]
  refine ⟨by rw [try_emplaceF_none_eq q hne],
    by rw [try_emplaceF_none_eq q hne],
    by rw [try_emplaceF_none_eq q hne],
    by rw [try_emplaceF_none_eq q hne], hq', ?_⟩
  intro d ops
  obtain ⟨ha1, ha2, ha3, _⟩ := runq_sim d ops (q.try_emplaceF none).2 xs hq'
  obtain ⟨hb1, hb2, hb3, _⟩ := runq_sim d ops q xs hqold
  rw [hsz] at ha1 ha2 ha3
  exact ⟨ha1.trans hb1.symm, ha2.trans hb2.symm, ha3.trans hb3.symm⟩

/-- Witness for C3 on a fresh queue of size 4. -/
theorem spscq_emplace_ctor_failure_witness :
    QInv (freshQ Nat 4) [] ∧ ([] : List Nat).length + 2 ≤ 4 ∧
    ((freshQ Nat 4).try_emplaceF none).1 = none ∧
    ((freshQ Nat 4).try_emplaceF none).2.writeIdx_ =
      (freshQ Nat 4).writeIdx_ ∧
    ((freshQ Nat 4).try_emplaceF none).2.data_ = (freshQ Nat 4).data_ ∧
    (runq 0 ((freshQ Nat 4).try_emplaceF none).2 [Op.push 9, Op.pop]).trace =
      (runq 0 (freshQ Nat 4) [Op.push 9, Op.pop]).trace ∧
    (runq 0 ((freshQ Nat 4).try_emplaceF none).2
        [Op.push 9, Op.pop]).popped =
      (runq 0 (freshQ Nat 4) [Op.push 9, Op.pop]).popped :=
  ⟨QInv_fresh (by decide), by decide,
    (spscq_emplace_ctor_failure (freshQ Nat 4) []
      (QInv_fresh (by decide)) (by decide)).1,
    (spscq_emplace_ctor_failure (freshQ Nat 4) []
      (QInv_fresh (by decide)) (by decide)).2.1,
    (spscq_emplace_ctor_failure (freshQ Nat 4) []
      (QInv_fresh (by decide)) (by decide)).2.2.2.1,
    ((spscq_emplace_ctor_failure (freshQ Nat 4) []
      (QInv_fresh (by decide)) (by decide)).2.2.2.2.2 0
        [Op.push 9, Op.pop]).1,
    ((spscq_emplace_ctor_failure (freshQ Nat 4) []
      (QInv_fresh (by decide)) (by decide)).2.2.2.2.2 0
        [Op.push 9, Op.pop]).2.1⟩

/-- C7 — construction: zero capacity is rejected at construction time
(`std::invalid_argument`, modelled as `none`) and no queue value exists;
for every positive capacity `N` (allocation succeeding) construction yields
the queue with both cursors (and both caches) zero and no element
constructed in any of the `N` slots. -/
theorem spscq_construct (α : Type) :
    mkSpscq α 0 = none ∧
    ∀ N : Nat, 0 < N →
      mkSpscq α N = some (freshQ α N) ∧
      (freshQ α N).readIdx_ = 0 ∧ (freshQ α N).writeIdx_ = 0 ∧
      (freshQ α N).readIdxCached_ = 0 ∧
      (freshQ α N).writeIdxCached_ = 0 ∧
      (freshQ α N).size_ = N ∧ (freshQ α N).data_.length = N ∧
      ∀ i, i < N → (freshQ α N).data_.get? i = some none := by
  refine ⟨rfl, fun N hN => ⟨?_, rfl, rfl, rfl, rfl, rfl, by simp [freshQ], ?_⟩⟩
  · unfold mkSpscq
    rw [if_neg (by omega)]
  · intro i hi
    simp [freshQ, List.get?_eq_getElem?, hi]

/-- Witness for C7 at `N = 3`. -/
theorem spscq_construct_witness :
    mkSpscq Nat 0 = none ∧ 0 < 3 ∧
    (mkSpscq Nat 3 = some (freshQ Nat 3) ∧
      (freshQ Nat 3).readIdx_ = 0 ∧ (freshQ Nat 3).writeIdx_ = 0 ∧
      (freshQ Nat 3).readIdxCached_ = 0 ∧
      (freshQ Nat 3).writeIdxCached_ = 0 ∧
      (freshQ Nat 3).size_ = 3 ∧ (freshQ Nat 3).data_.length = 3 ∧
      ∀ i, i < 3 → (freshQ Nat 3).data_.get? i = some none) :=
  ⟨(spscq_construct Nat).1, by decide, (spscq_construct Nat).2 3 (by decide)⟩

/-- C10 — degenerate size-1 queue: construction with `size == 1` succeeds
(1 passes the `size > 0` check), but the resulting queue has usable
capacity 0: over every sequence of operations every `try_emplace` returns
`false` (the incremented write index immediately wraps onto the read
index) and every `try_pop` returns `false` (the cursors stay equal), so
nothing is ever accepted or delivered. -/
theorem spscq_size_one_degenerate (α : Type) (d : α) (ops : List (Op α)) :
    mkSpscq α 1 = some (freshQ α 1) ∧
    (runq d (freshQ α 1) ops).trace = ops.map (fun _ => false) ∧
    (runq d (freshQ α 1) ops).popped = [] ∧
    (runq d (freshQ α 1) ops).pushedOK = [] := by
  obtain ⟨htr, hpo, hpu, _⟩ :=
    runq_sim d ops (freshQ α 1) [] (QInv_fresh (by omega))
  have hs : (freshQ α 1).size_ = 1 := rfl
  rw [hs, arun_one] at htr hpo hpu
  exact ⟨rfl, htr, hpo, hpu⟩

/-- C6 — `size()` correctness: for cursor values in `[0, size_)` (with
`size_` representable in `size_t`), the `size_t` expression
`writeIdx - readIdx + (writeIdx < readIdx ? size_ : 0)` equals
`(writeIdx + size_ - readIdx) % size_` — the occupancy `(w − r) mod N`,
including the wraparound case `w < r` handled through unsigned underflow —
and on every reachable state it equals the number of live elements
(successful pushes minus successful pops). -/
theorem spscq_size_correct {α : Type} (q : spscq α)
    (hr : q.readIdx_ < q.size_) (hw : q.writeIdx_ < q.size_)
    (hN : q.size_ ≤ USIZE) :
    q.qsize = (q.writeIdx_ + q.size_ - q.readIdx_) % q.size_ ∧
    ∀ xs : List α, QInv q xs → q.qsize = xs.length := by
  have hU : 1 ≤ USIZE := by omega
  have main : q.qsize = (q.writeIdx_ + q.size_ - q.readIdx_) % q.size_ := by
    by_cases hlt : q.writeIdx_ < q.readIdx_
    · rw [spscq.qsize, if_pos hlt]
      rw [show q.writeIdx_ + (USIZE - q.readIdx_) =
        USIZE - (q.readIdx_ - q.writeIdx_) from by omega]
      rw [Nat.mod_eq_of_lt
        (show USIZE - (q.readIdx_ - q.writeIdx_) < USIZE from by omega)]
      rw [show USIZE - (q.readIdx_ - q.writeIdx_) + q.size_ =
        USIZE + (q.size_ - (q.readIdx_ - q.writeIdx_)) from by omega]
      rw [Nat.add_mod_left]
      rw [Nat.mod_eq_of_lt
        (show q.size_ - (q.readIdx_ - q.writeIdx_) < USIZE from by omega)]
      rw [show q.writeIdx_ + q.size_ - q.readIdx_ =
        q.size_ - (q.readIdx_ - q.writeIdx_) from by omega]
      rw [Nat.mod_eq_of_lt
        (show q.size_ - (q.readIdx_ - q.writeIdx_) < q.size_ from by omega)]
    · rw [spscq.qsize, if_neg hlt]
      rw [show q.writeIdx_ + (USIZE - q.readIdx_) =
        USIZE + (q.writeIdx_ - q.readIdx_) from by omega]
      rw [Nat.add_mod_left, Nat.add_zero, Nat.mod_mod_of_dvd _ dvd_rfl]
      rw [Nat.mod_eq_of_lt
        (show q.writeIdx_ - q.readIdx_ < USIZE from by omega)]
      rw [show q.writeIdx_ + q.size_ - q.readIdx_ =
        q.size_ + (q.writeIdx_ - q.readIdx_) from by omega]
      rw [Nat.add_mod_left]
      rw [Nat.mod_eq_of_lt
        (show q.writeIdx_ - q.readIdx_ < q.size_ from by omega)]
  refine ⟨main, fun xs hq => ?_⟩
  obtain ⟨hN', _, _, _, _, _, hxs, hwr, _, _, _⟩ := hq
  rw [main]
  rcases hwr with hwr | hwr
  · rw [show q.writeIdx_ + q.size_ - q.readIdx_ = q.size_ + xs.length from
      by omega]
    rw [Nat.add_mod_left, Nat.mod_eq_of_lt hxs]
  · rw [show q.writeIdx_ + q.size_ - q.readIdx_ = xs.length from by omega]
    exact Nat.mod_eq_of_lt hxs

/-- A reachable mid-wrap state used to witness C6: size 4, slots 3 and 0
occupied with 5 and 7, read cursor 3, write cursor 1. -/
def qC6 : spscq Nat :=
  ⟨4, [some 7, none, none, some 5], 3, 3, 1, 1⟩

/-- The C6 witness state is reachable with live contents `[5, 7]`. -/
theorem qC6_inv : QInv qC6 [5, 7] :=
  ⟨by decide, by decide, by decide, by decide, by decide, by decide,
    by decide, by decide, ⟨2, by decide⟩, ⟨2, by decide⟩, by decide⟩

/-- Witness for C6 on the wraparound state `qC6`. -/
theorem spscq_size_correct_witness :
    qC6.readIdx_ < qC6.size_ ∧ qC6.writeIdx_ < qC6.size_ ∧
    qC6.size_ ≤ USIZE ∧
    qC6.qsize = (qC6.writeIdx_ + qC6.size_ - qC6.readIdx_) % qC6.size_ ∧
    qC6.qsize = ([5, 7] : List Nat).length :=
  ⟨by decide, by decide, by decide,
    (spscq_size_correct qC6 (by decide) (by decide) (by decide)).1,
    (spscq_size_correct qC6 (by decide) (by decide) (by decide)).2
      [5, 7] qC6_inv⟩

/-- State of the masked power-of-two iteration `rbuffer<N>` from
`src/rbuffer.hpp`: an `std::array<uint32_t, N>` (always-live plain values)
plus the same four cursor fields as `spscq`.  The template parameter `N` is
passed to the operations. -/
structure rbuffer where
  data_ : List Nat
  readIdx_ : Nat
  readIdxCached_ : Nat
  writeIdx_ : Nat
  writeIdxCached_ : Nat
deriving Repr, DecidableEq

/-- `rbuffer<N>::push`: the next write index is computed branchlessly as
`(writeIdx_ + 1) & mask_` with `mask_ = N - 1`; the full-check against the
(possibly refreshed) cached read index is identical to `spscq`. -/
def rbuffer.push (N : Nat) (q : rbuffer) (value : Nat) : Bool × rbuffer :=
  if (q.writeIdx_ + 1) &&& (N - 1) = q.readIdxCached_ then
    if (q.writeIdx_ + 1) &&& (N - 1) = q.readIdx_ then
      (false, { q with readIdxCached_ := q.readIdx_ })
    else
      (true, { q with data_ := q.data_.set q.writeIdx_ value,
                      writeIdx_ := (q.writeIdx_ + 1) &&& (N - 1),
                      readIdxCached_ := q.readIdx_ })
  else
    (true, { q with data_ := q.data_.set q.writeIdx_ value,
                    writeIdx_ := (q.writeIdx_ + 1) &&& (N - 1) })

/-- `rbuffer<N>::pop`: symmetric masked advance of the read cursor; the
slot is read but (being a plain array) not destroyed. -/
def rbuffer.pop (N : Nat) (q : rbuffer) (value : Nat) :
    Bool × Nat × rbuffer :=
  if q.readIdx_ = q.writeIdxCached_ then
    if q.readIdx_ = q.writeIdx_ then
      (false, value, { q with writeIdxCached_ := q.writeIdx_ })
    else
      (true, q.data_.getD q.readIdx_ 0,
        { q with readIdx_ := (q.readIdx_ + 1) &&& (N - 1),
                 writeIdxCached_ := q.writeIdx_ })
  else
    (true, q.data_.getD q.readIdx_ 0,
      { q with readIdx_ := (q.readIdx_ + 1) &&& (N - 1) })

/-- A freshly constructed `rbuffer<N>`: cursors zero-initialized (array
contents irrelevant, modelled as zeros). -/
def rfresh (N : Nat) : rbuffer :=
  ⟨List.replicate N 0, 0, 0, 0, 0⟩

/-- Success flags of a block of consecutive `rbuffer<N>::push` calls. -/
def rpushSeq (N : Nat) : rbuffer → List Nat → List Bool
  | _, [] => []
  | q, v :: vs =>
      let r := rbuffer.push N q v
      r.1 :: rpushSeq N r.2 vs

/-- `rbuffer.push` on an explicit state, as a definitional equation. -/
theorem rbuffer_push_mk (N : Nat) (dat : List Nat) (r rc w wc v : Nat) :
    rbuffer.push N ⟨dat, r, rc, w, wc⟩ v =
      if (w + 1) &&& (N - 1) = rc then
        if (w + 1) &&& (N - 1) = r then
          (false, ⟨dat, r, r, w, wc⟩)
        else
          (true, ⟨dat.set w v, r, r, (w + 1) &&& (N - 1), wc⟩)
      else
        (true, ⟨dat.set w v, r, rc, (w + 1) &&& (N - 1), wc⟩) := rfl

/-- Push trace of `rbuffer<2^k>` from a partially filled untouched-consumer
state (both consumer-side cursors still 0, write cursor `m`): the `i`-th
push succeeds exactly while the masked increment has not wrapped onto the
read cursor. -/
theorem rpush_trace (k : Nat) :
    ∀ (vs dat : List Nat) (m : Nat), m < 2 ^ k →
      rpushSeq (2 ^ k) ⟨dat, 0, 0, m, 0⟩ vs =
        (List.range vs.length).map fun i => decide (m + 1 + i < 2 ^ k) := by
  intro vs
  induction vs with
  | nil => intro dat m hm; simp [rpushSeq]
  | cons v vs ih =>
    intro dat m hm
    have hmask := Nat.and_pow_two_sub_one_eq_mod (m + 1) k
    by_cases hlt : m + 1 < 2 ^ k
    · have hmv : (m + 1) &&& (2 ^ k - 1) = m + 1 := by
        rw [hmask]; exact Nat.mod_eq_of_lt hlt
      simp only [rpushSeq, rbuffer_push_mk, hmv, if_neg (by omega : ¬ (m + 1 = 0))]
      rw [ih (dat.set m v) (m + 1) hlt, List.length_cons,
        List.range_succ_eq_map, List.map_cons, List.map_map]
      congr 1
      · exact (decide_eq_true (by omega)).symm
      · refine List.map_congr_left ?_
        intro i hi
        simp only [Function.comp_apply]
        exact decide_eq_decide.mpr (by omega)
    · have hm1 : m + 1 = 2 ^ k := by omega
      have hmv : (m + 1) &&& (2 ^ k - 1) = 0 := by
        rw [hmask, hm1, Nat.mod_self]
      simp only [rpushSeq, rbuffer_push_mk, hmv, if_true]
      rw [ih dat m hm, List.length_cons,
        List.range_succ_eq_map, List.map_cons, List.map_map]
      congr 1
      · exact (decide_eq_false (by omega)).symm
      · refine List.map_congr_left ?_
        intro i hi
        simp only [Function.comp_apply]
        exact decide_eq_decide.mpr (by omega)

/-- C8 counterexample: on a fresh `rbuffer<16>` (the repository's default
size), 16 consecutive pushes do NOT all return `true` — the 16th push
fails, because the masked variant still resolves the empty/full ambiguity
by the `nextWriteIdx == readIdx` check and therefore reserves one slot. -/
theorem rbuffer_full_capacity_cex :
    ¬ rpushSeq 16 (rfresh 16) (List.range 16) = List.replicate 16 true := by
  decide

/-- C8 amended — masked variant capacity: on a fresh `rbuffer<2^k>`, a
block of `2^k` consecutive pushes with no intervening pops succeeds exactly
`2^k - 1` times and the `2^k`-th push fails: one slot is reserved, exactly
as in the `spscq` variant. -/
theorem rbuffer_capacity_bound (k : Nat) (vs : List Nat)
    (hvs : vs.length = 2 ^ k) :
    rpushSeq (2 ^ k) (rfresh (2 ^ k)) vs =
      List.replicate (2 ^ k - 1) true ++ [false] := by
  have h0 : 0 < 2 ^ k := Nat.two_pow_pos k
  have htr := rpush_trace k vs (List.replicate (2 ^ k) 0) 0 h0
  rw [show rfresh (2 ^ k) = ⟨List.replicate (2 ^ k) 0, 0, 0, 0, 0⟩ from rfl,
    htr, hvs]
  rw [List.map_congr_left
    (fun i hi => decide_eq_decide.mpr (by omega :
      (0 + 1 + i < 2 ^ k) ↔ (i + 2 ≤ 2 ^ k)))]
  exact range_map_decide (2 ^ k) h0

/-- Witness for the amended C8 at `k = 2`. -/
theorem rbuffer_capacity_bound_witness :
    (List.range 4).length = 2 ^ 2 ∧
    rpushSeq (2 ^ 2) (rfresh (2 ^ 2)) (List.range 4) =
      List.replicate (2 ^ 2 - 1) true ++ [false] :=
  ⟨by decide, rbuffer_capacity_bound 2 (List.range 4) (by decide)⟩
